import Mathlib

/-!
Verification development for the plagiarism-detection core of the
`plagiarism-backend` repository.

The algorithmic pipeline (text normalization, k-gram generation, Winnowing
fingerprinting, MinHash signatures, LSH bucketing, Jaccard similarity, match
span construction) lives in `src/utils/plagiarism.ts`; the check orchestration
lives in `src/routes/checks.routes.ts`.  This file is a shallow embedding of
those functions over `List Char` (strings), `Nat` (the non-negative bigint
hashes and positions) and `ℚ` (the floating-point scores; every score in the
source is a ratio of small integers, so rationals model them exactly).

The SHA-1 based `hash64` (and the band hash used inside `lshBuckets`) are
opaque deterministic functions of their input; they are modelled as explicit
function parameters `h` (k-gram hash) and `bandHash` (band serialization
hash).  Every theorem quantifies over these parameters, so nothing proved here
depends on properties of SHA-1.  Character classes: the source regexes use
Unicode classes `\p{L}\p{N}\s`; the embedding models them with `Char.isAlpha`,
`Char.isDigit` and `Char.isWhitespace` (the ASCII fragment), and `toLowerCase`
with `Char.toLower`.
-/

namespace Plag

/-! ## Normalizer (`normalize` in src/utils/plagiarism.ts, lines 344-351)

```
text.toLowerCase()
    .replace(/\r\n/g, "\n")
    .replace(/[^\p{L}\p{N}\s]+/gu, " ")
    .replace(/\s+/g, " ")
    .trim()
```
-/

/-- A word character: letter or digit (`\p{L}\p{N}`, ASCII fragment). -/
def isWordChar (c : Char) : Bool := c.isAlpha || c.isDigit

/-- A whitespace character (`\s`). -/
def isSpaceChar (c : Char) : Bool := c.isWhitespace

/-- A character matched by `[^\p{L}\p{N}\s]`: neither word nor whitespace. -/
def isJunk (c : Char) : Bool := !(isWordChar c || isSpaceChar c)

/-- Replacement of CRLF pairs (`.replace(/\r\n/g, "\n")`), left-to-right
and non-overlapping. -/
def replCrlf : List Char → List Char
  | [] => []
  | [c] => [c]
  | c :: d :: cs =>
    if c = '\r' ∧ d = '\n' then '\n' :: replCrlf cs
    else c :: replCrlf (d :: cs)

/-- Worker for `collapseRuns`: the flag records whether the previous input
character was part of a run matched by `p` (in which case further `p`-matching
characters are absorbed into the single replacement already emitted). -/
def collapseGo (p : Char → Bool) (r : Char) : Bool → List Char → List Char
  | _, [] => []
  | inRun, c :: cs =>
    if p c then
      if inRun then collapseGo p r true cs
      else r :: collapseGo p r true cs
    else c :: collapseGo p r false cs

/-- Run replacement (`.replace(/X+/g, r)`): replace every maximal run of
characters matched by `p` with the single character `r`. -/
def collapseRuns (p : Char → Bool) (r : Char) (l : List Char) : List Char :=
  collapseGo p r false l

/-- JS `String.prototype.trim`: drop leading and trailing whitespace. -/
def trim (l : List Char) : List Char :=
  ((l.dropWhile isSpaceChar).reverse.dropWhile isSpaceChar).reverse

/-- The normalization pipeline (`normalize`). -/
def normalize (text : List Char) : List Char :=
  trim (collapseRuns isSpaceChar ' '
    (collapseRuns isJunk ' ' (replCrlf (text.map Char.toLower))))

/-! ## K-grams and Winnowing (src/utils/plagiarism.ts, lines 362-402)

The SHA-1 based `hash64` is modelled by an arbitrary hash parameter
`h : List Char → Nat` (hashes in the source are non-negative bigints).
-/

/-- A Winnowing fingerprint: `{ hash, pos }`, with `pos` an index into the
normalized text. -/
structure Fingerprint where
  hash : Nat
  pos : Nat
deriving DecidableEq, Repr

/-- All length-`k` slices of the normalized text with their
starting offsets (`for (let i = 0; i <= t.length - k; i++)`). -/
def makeKgrams (text : List Char) (k : Nat) : List (List Char × Nat) :=
  let t := normalize text
  if t.length < k then []
  else (List.range (t.length - k + 1)).map (fun i => ((t.drop i).take k, i))

/-- The inner minimum scan of `winnow`'s window loop: fold over the window,
keeping the current minimum and replacing it only on a strictly smaller hash
(`if (cur.h < min.h) min = cur`), which selects the leftmost minimum. -/
def pickMin : List (Nat × Nat) → Nat × Nat → Nat × Nat
  | [], m => m
  | c :: cs, m => pickMin cs (if c.1 < m.1 then c else m)

/-- The window minimum: the source initializes `min = hashes[i]` (the window
head) and scans the window from its head (the self-comparison at `j = i` is a
no-op). -/
def pickFirstMin : List (Nat × Nat) → Option (Nat × Nat)
  | [] => none
  | c :: cs => some (pickMin cs c)

/-- One iteration of `winnow`'s outer loop at window start `i`: take the
window's leftmost minimum `m` and append it to the fingerprint list unless it
equals the previously appended pair
(`min.pos !== lastPickedPos || min.h !== lastPickedHash`). -/
def winnowStep (hashes : List (Nat × Nat)) (windowSize : Nat)
    (st : List Fingerprint × Option (Nat × Nat)) (i : Nat) :
    List Fingerprint × Option (Nat × Nat) :=
  match pickFirstMin ((hashes.drop i).take windowSize) with
  | none => st
  | some m => if st.2 = some m then st else (st.1 ++ [⟨m.1, m.2⟩], some m)

/-- Winnowing (`winnow(text, k, w)`): hash the k-grams, slide a window of size
`max(1, w)` over positions `0 .. hashes.length - windowSize` (no iterations
when the JS bound is negative), pick each window's leftmost minimal
`(hash, pos)` and deduplicate consecutively.  The fold state is
`(fps, lastPicked)`; `lastPicked = none` models the initial
`lastPickedPos = -1, lastPickedHash = null`. -/
def winnow (h : List Char → Nat) (text : List Char) (k w : Nat) :
    List Fingerprint :=
  let grams := makeKgrams text k
  if grams.length = 0 then []
  else
    let hashes := grams.map (fun g => (h g.1, g.2))
    let windowSize := max 1 w
    let idxs := List.range (hashes.length + 1 - windowSize)
    (idxs.foldl (winnowStep hashes windowSize) ([], none)).1

/-! ## Jaccard similarity over fingerprint hash sets
(`fingerprintSimilarity`, lines 405-417) -/

/-- The number of distinct fingerprint hashes of `a` (the size of `setA`). -/
def setCount (a : List Fingerprint) : Nat :=
  ((a.map Fingerprint.hash).dedup).length

/-- The size of the intersection of the two distinct-hash sets (`inter`). -/
def interCount (a b : List Fingerprint) : Nat :=
  (((a.map Fingerprint.hash).dedup).filter
    (fun x => ((b.map Fingerprint.hash).dedup).contains x)).length

/-- Jaccard similarity (`fingerprintSimilarity(a, b)`) of the sets of
fingerprint hashes; 0 when either list is empty (the `union == 0` guard is
unreachable then, but kept).  `union = |setA| + |setB| - inter`. -/
def fingerprintSimilarity (a b : List Fingerprint) : ℚ :=
  if a.length = 0 ∨ b.length = 0 then 0
  else if setCount a + setCount b - interCount a b = 0 then 0
  else (interCount a b : ℚ) / ((setCount a + setCount b - interCount a b : Nat) : ℚ)

/-! ## MinHash and LSH (lines 419-475) -/

/-- The modulus of the MinHash permutation family: `PRIME = 2^61 - 1`. -/
def PRIME : Nat := 2305843009213693951

/-- The 61-bit reductions of the k-gram hashes of `text`
(`hashToInt61(hash64(g.gram))`, before the `Set` deduplication; the distinct
hash set `S` is `(hpList h text k).dedup`). -/
def hpList (h : List Char → Nat) (text : List Char) (k : Nat) : List Nat :=
  (makeKgrams text k).map (fun g => h g.1 % PRIME)

/-- Coefficient `a = 1 + (i * 7919) % 100000`. -/
def aCoef (i : Nat) : Nat := 1 + (i * 7919) % 100000

/-- Coefficient `b = 1 + (i * 104729) % 100000`. -/
def bCoef (i : Nat) : Nat := 1 + (i * 104729) % 100000

/-- MinHash signature (`minhashSignature(text, k, numPerm)`): for an empty
distinct k-gram hash
set return `numPerm` sentinels `PRIME`; otherwise entry `i` is the running
minimum of `(a*x + b) % PRIME` over the distinct hashes `x`, started at
`PRIME`. -/
def minhashSignature (h : List Char → Nat) (text : List Char) (k : Nat)
    (numPerm : Nat) : List Nat :=
  let items := (hpList h text k).dedup
  if items.length = 0 then List.replicate numPerm PRIME
  else
    (List.range numPerm).map (fun i =>
      items.foldl (fun mn x => min mn ((aCoef i * x + bCoef i) % PRIME)) PRIME)

/-- LSH bucketing (`lshBuckets(sig, bands)`): split the signature into
`bands` rows of
`r = floor(len / bands)` entries and hash each band slice.  A bucket key
`"b:" + sha1hex(b + ":" + joined)` is modelled as the pair
`(b, bandHash (b, slice))` with `bandHash` an arbitrary hash parameter. -/
def lshBuckets (bandHash : Nat × List Nat → Nat) (sig : List Nat)
    (bands : Nat) : List (Nat × Nat) :=
  let r := sig.length / bands
  if r = 0 then []
  else (List.range bands).map (fun b => (b, bandHash (b, (sig.drop (b * r)).take r)))

/-- MinHash estimate (`estimateMinhashSim(sigA, sigB)`): the fraction of
positions (up to the
shorter length) where the signatures agree; the `zip` truncates to
`min(len, len)` exactly like the source's loop bound. -/
def estimateMinhashSim (sigA sigB : List Nat) : ℚ :=
  if sigA.length = 0 ∨ sigB.length = 0 then 0
  else
    let n := (sigA.zip sigB).length
    let same := ((sigA.zip sigB).filter (fun p => p.1 == p.2)).length
    (same : ℚ) / (n : ℚ)

/-! ## Span builder (`buildMatchSpans`, lines 478-531) -/

/-- A raw match record `{ hash, aPos, bPos }`. -/
structure RawMatch where
  hash : Nat
  aPos : Nat
  bPos : Nat
deriving DecidableEq, Repr

/-- The span accumulator `{ docStart, docEnd, srcStart, srcEnd, hash }`. -/
structure RawSpan where
  docStart : Nat
  docEnd : Nat
  srcStart : Nat
  srcEnd : Nat
  hash : Nat
deriving DecidableEq, Repr

/-- An emitted span row (`doc_span_start, ..., match_score, snippet_hash`). -/
structure MatchSpan where
  doc_span_start : Nat
  doc_span_end : Nat
  src_span_start : Nat
  src_span_end : Nat
  match_score : ℚ
  snippet_hash : Nat
deriving DecidableEq, Repr

/-- Stable insertion used to model `matches.sort((x, y) => x.aPos - y.aPos)`:
an earlier element is placed before every later element with the same key, as
guaranteed by the ECMAScript stable-sort contract. -/
def insertAsc (m : RawMatch) : List RawMatch → List RawMatch
  | [] => [m]
  | x :: xs => if m.aPos ≤ x.aPos then m :: x :: xs else x :: insertAsc m xs

/-- Stable ascending sort by `aPos` (insertion sort, processed right to
left: each element is inserted in front of the later ones). -/
def sortMatches (l : List RawMatch) : List RawMatch :=
  l.foldr insertAsc []

/-- The grouping sweep (`for (let i = 1; i < matches.length; i++)`): extend
the current span while `m.aPos <= cur.docEnd + k`, otherwise emit it and open
a new one; the final `spans.push(cur)` is the base case. -/
def groupSpans (k : Nat) : RawSpan → List RawMatch → List RawSpan
  | cur, [] => [cur]
  | cur, m :: ms =>
    if m.aPos ≤ cur.docEnd + k then
      groupSpans k
        ⟨cur.docStart, m.aPos + k, cur.srcStart, m.bPos + k, cur.hash⟩ ms
    else
      cur :: groupSpans k ⟨m.aPos, m.aPos + k, m.bPos, m.bPos + k, m.hash⟩ ms

/-- Span building (`buildMatchSpans(fpA, fpB, k)`): match each `fpA` entry
against the first
`fpB` position with the same hash (`mapB.get(key)[0]` holds the first pushed
position, i.e. the first in `fpB` order), sort by `aPos`, group, then score
each span with `min(1, (docEnd - docStart) / (docLen * k))` where
`docLen = fpA.length || 1`. -/
def buildMatchSpans (fpA fpB : List Fingerprint) (k : Nat) : List MatchSpan :=
  let rawMatches := fpA.filterMap (fun a =>
    match fpB.find? (fun x => x.hash == a.hash) with
    | some b => some ⟨a.hash, a.pos, b.pos⟩
    | none => none)
  match sortMatches rawMatches with
  | [] => []
  | m :: ms =>
    let docLen := if fpA.length = 0 then 1 else fpA.length
    (groupSpans k ⟨m.aPos, m.aPos + k, m.bPos, m.bPos + k, m.hash⟩ ms).map
      (fun s => ⟨s.docStart, s.docEnd, s.srcStart, s.srcEnd,
        min 1 (((s.docEnd : ℚ) - (s.docStart : ℚ)) / ((docLen : ℚ) * (k : ℚ))),
        s.hash⟩)

/-! ## Check orchestration (src/routes/checks.routes.ts, POST /api/checks)

The database rows and files are modelled by explicit inputs: the active
`algoritma_params` row, the document's text file (`none` when unreadable:
`readTextSafe` then yields `""`), and the active corpus rows in the order the
SQL returns them (`ORDER BY id_corpus DESC`).  The audit log, timestamps and
ids are outside the claims and not modelled.
-/

/-- A row of `corpus_document` together with the content of its `path_text`
file (`none` when the file is missing or unreadable). -/
structure CorpusDoc where
  id_corpus : Nat
  title : List Char
  text : Option (List Char)
deriving DecidableEq, Repr

/-- The active `algoritma_params` row (`base` is unused by the route). -/
structure ParamsRow where
  id_params : Nat
  k : Nat
  w : Nat
  threshold : ℚ
deriving DecidableEq, Repr

/-- A scored candidate `{ id_corpus, title, approx }`. -/
structure Cand where
  id_corpus : Nat
  title : List Char
  approx : ℚ
deriving DecidableEq, Repr

/-- The `summary_json` object: exactly the fields `params`, `candidates`,
`best_similarity` (there is no warnings field of any kind). -/
structure Summary where
  params_id : Nat
  k : Nat
  w : Nat
  threshold : ℚ
  candidates : List Cand
  best_similarity : ℚ
deriving DecidableEq, Repr

/-- A `check_match` row as queued in `matchesToInsert` (the constant
`source_type = "corpus"` is omitted). -/
structure MatchRow where
  source_id : Nat
  doc_span_start : Nat
  doc_span_end : Nat
  src_span_start : Nat
  src_span_end : Nat
  match_score : ℚ
  snippet_hash : Nat
deriving DecidableEq, Repr

/-- Terminal status of a `check_request`. -/
inductive CheckStatus where
  | done
  | failed
deriving DecidableEq, Repr

/-- The observable outcome of one `POST /api/checks` run: final request
status, the persisted `check_result` (similarity percent and summary) if any,
and the persisted `check_match` rows in insertion order. -/
structure CheckOutcome where
  status : CheckStatus
  result : Option (ℚ × Summary)
  rows : List MatchRow
deriving DecidableEq, Repr

/-- Safe file read (`readTextSafe`): the file contents, or `""` on any read
error. -/
def readTextSafe (file : Option (List Char)) : List Char := file.getD []

/-- One iteration of the corpus scan (lines 142-158): skip an entry whose
text is empty or whose trimmed text is shorter than `k`
(`if (!cText || cText.trim().length < k) continue`); keep it as a candidate
when it shares at least one LSH bucket with the document, scored by
`estimateMinhashSim`. -/
def scanEntry (h : List Char → Nat) (bandHash : Nat × List Nat → Nat)
    (sigDoc : List Nat) (bucketsDoc : List (Nat × Nat)) (k : Nat)
    (c : CorpusDoc) : Option Cand :=
  if (readTextSafe c.text).length = 0 ∨ (trim (readTextSafe c.text)).length < k
  then none
  else if (lshBuckets bandHash
      (minhashSignature h (readTextSafe c.text) k 100) 20).any
        (fun b => decide (b ∈ bucketsDoc)) then
    some ⟨c.id_corpus, c.title,
      estimateMinhashSim sigDoc (minhashSignature h (readTextSafe c.text) k 100)⟩
  else none

/-- The corpus scan: `scoredCandidates` in corpus order. -/
def scanCorpus (h : List Char → Nat) (bandHash : Nat × List Nat → Nat)
    (docText : List Char) (k : Nat) (corpus : List CorpusDoc) : List Cand :=
  corpus.filterMap (scanEntry h bandHash (minhashSignature h docText k 100)
    (lshBuckets bandHash (minhashSignature h docText k 100) 20) k)

/-- Stable insertion used to model
`scoredCandidates.sort((a, b) => b.approx - a.approx)` (descending by
`approx`; the ECMAScript sort is stable, so an earlier element precedes every
later element with equal `approx`). -/
def insertDesc (m : Cand) : List Cand → List Cand
  | [] => [m]
  | x :: xs => if x.approx ≤ m.approx then m :: x :: xs else x :: insertDesc m xs

/-- Stable descending sort by `approx`. -/
def sortCandidates (l : List Cand) : List Cand :=
  l.foldr insertDesc []

/-- One iteration of the verification loop (lines 166-195): look the
candidate up in the corpus rows (`corpusRows.find`), re-read its text, winnow
it, compute the Jaccard similarity, track the best, and when
`sim >= threshold` queue the first 50 spans as `check_match` rows — each row
carrying `match_score: sim`. -/
def verifyStep (h : List Char → Nat) (fpDoc : List Fingerprint)
    (k w : Nat) (threshold : ℚ) (corpus : List CorpusDoc)
    (acc : ℚ × List MatchRow) (cand : Cand) : ℚ × List MatchRow :=
  match corpus.find? (fun x => x.id_corpus == cand.id_corpus) with
  | none => acc
  | some c =>
    if threshold ≤
        fingerprintSimilarity fpDoc (winnow h (readTextSafe c.text) k w) then
      (max acc.1
        (fingerprintSimilarity fpDoc (winnow h (readTextSafe c.text) k w)),
       acc.2 ++
        ((buildMatchSpans fpDoc (winnow h (readTextSafe c.text) k w) k).take
          50).map
          (fun s => ⟨cand.id_corpus, s.doc_span_start, s.doc_span_end,
            s.src_span_start, s.src_span_end,
            fingerprintSimilarity fpDoc (winnow h (readTextSafe c.text) k w),
            s.snippet_hash⟩))
    else
      (max acc.1
        (fingerprintSimilarity fpDoc (winnow h (readTextSafe c.text) k w)),
       acc.2)

/-- The verification loop over the selected candidates, returning
`(bestSim, matchesToInsert)`. -/
def verifyCandidates (h : List Char → Nat) (fpDoc : List Fingerprint)
    (k w : Nat) (threshold : ℚ) (corpus : List CorpusDoc)
    (cands : List Cand) : ℚ × List MatchRow :=
  cands.foldl (verifyStep h fpDoc k w threshold corpus) (0, [])

/-- Rounding as in `Math.round(q)` for the non-negative scores involved:
the floor of `q + 1/2`. -/
def roundHalfUp (q : ℚ) : ℤ := (q + 1 / 2).floor

/-- The candidate selection: sort the scored candidates (stable, descending
`approx`) and keep the top `min(maxCandidates, 50)` (`maxCand` models
`Number(req.body.max_candidates ?? 10)` before the route's
`Math.min(_, 50)`). -/
def selectCandidates (scored : List Cand) (maxCand : Nat) : List Cand :=
  (sortCandidates scored).take (min maxCand 50)

/-- One `POST /api/checks` run (lines 117-259), after the document row and
active params have been found: read the document text, fail with
`EmptyOrTooShort` when it is empty or its trimmed length is below `k`
(`!docText || docText.trim().length < k`); otherwise scan the corpus, select
the candidates, verify them by Winnowing, and persist the result (similarity
percent rounded to two decimals) plus the queued match rows.  The candidate
list appears both in the summary and as the verification loop's input,
exactly as in the route. -/
def runCheck (h : List Char → Nat) (bandHash : Nat × List Nat → Nat)
    (params : ParamsRow) (docFile : Option (List Char)) (maxCand : Nat)
    (corpus : List CorpusDoc) : CheckOutcome :=
  if (readTextSafe docFile).length = 0 ∨
      (trim (readTextSafe docFile)).length < params.k then
    ⟨.failed, none, []⟩
  else
    ⟨.done,
      some
        (((roundHalfUp
            ((verifyCandidates h
                (winnow h (readTextSafe docFile) params.k params.w) params.k
                params.w params.threshold corpus
                (selectCandidates
                  (scanCorpus h bandHash (readTextSafe docFile) params.k
                    corpus) maxCand)).1 * 10000) : ℚ) / 100),
          ⟨params.id_params, params.k, params.w, params.threshold,
            selectCandidates
              (scanCorpus h bandHash (readTextSafe docFile) params.k corpus)
              maxCand,
            (verifyCandidates h
              (winnow h (readTextSafe docFile) params.k params.w) params.k
              params.w params.threshold corpus
              (selectCandidates
                (scanCorpus h bandHash (readTextSafe docFile) params.k
                  corpus) maxCand)).1⟩),
      (verifyCandidates h (winnow h (readTextSafe docFile) params.k params.w)
        params.k params.w params.threshold corpus
        (selectCandidates
          (scanCorpus h bandHash (readTextSafe docFile) params.k corpus)
          maxCand)).2⟩

/-! ## Winnowing invariants (claim C8)

The key observation: in `winnow` the hashed k-gram at list index `j` is the
pair `(H j, j)` (positions coincide with indices), so the window minimum at
start `i` is the leftmost argmin of `H` on `[i, i + windowSize)`, and those
argmins are monotone in `i`. -/

/-- Leftmost argmin of `H` on the inclusive interval `[a, a + m]`. -/
def fam (H : Nat → Nat) (a : Nat) : Nat → Nat
  | 0 => a
  | m + 1 => if H a ≤ H (fam H (a + 1) m) then a else fam H (a + 1) m

/-- The dedup-append step of `winnow`, on an already-selected window
minimum. -/
def dedupStep (st : List Fingerprint × Option (Nat × Nat)) (m : Nat × Nat) :
    List Fingerprint × Option (Nat × Nat) :=
  if st.2 = some m then st else (st.1 ++ [⟨m.1, m.2⟩], some m)

/-- The invariants of an emitted span that do hold: a non-degenerate document
range and a score in `[0, 1]`. -/
def SpanGood (s : MatchSpan) : Prop :=
  s.doc_span_start < s.doc_span_end ∧ 0 ≤ s.match_score ∧ s.match_score ≤ 1

/-- The candidate list persisted in `summary_json` (empty when the check
failed before producing a result). -/
def runSummaryCandidates (o : CheckOutcome) : List Cand :=
  match o.result with
  | some r => r.2.candidates
  | none => []

/-- The ordering claimed by the spec for the persisted candidate list:
descending `approx`, ties broken by ascending corpus id. -/
def CandSpecOrder (l : List Cand) : Prop :=
  l.Pairwise (fun a b =>
    b.approx < a.approx ∨ (a.approx = b.approx ∧ a.id_corpus < b.id_corpus))

/-- The ordering the code actually produces: descending `approx`, ties broken
by descending corpus id (the stable sort preserves the `ORDER BY id_corpus
DESC` scan order). -/
def CandCodeOrder (l : List Cand) : Prop :=
  l.Pairwise (fun a b =>
    b.approx < a.approx ∨ (a.approx = b.approx ∧ b.id_corpus < a.id_corpus))

/-- A concrete k-gram hash used in counterexamples (any deterministic
function of the gram works; the claims quantify over the hash). -/
def hashAB : List Char → Nat := fun l =>
  if l = ['a', 'b'] then 1 else if l = ['b', 'c'] then 2 else 99

/-- A concrete single-character k-gram hash used in counterexamples. -/
def hashChar : List Char → Nat := fun l =>
  if l = ['a'] then 1 else if l = ['b'] then 2 else 99

/-- A concrete k-gram hash depending on length and head, used in the C4
counterexample. -/
def hashLenHead : List Char → Nat := fun l => l.length + (l.headD 'z').toNat

/-- A trivial band hash for counterexamples (collisions only make bucket
sharing more likely, which the counterexamples need). -/
def bandZero : Nat × List Nat → Nat := fun _ => 0

/-! ### Character-level facts -/

theorem toNat_ofNat_valid {n : Nat} (h : n.isValidChar) :
    (Char.ofNat n).toNat = n := by
  rw [Char.ofNat, dif_pos h]; rfl

theorem toLower_toNat_of_upper {c : Char}
    (h : 65 ≤ c.toNat ∧ c.toNat ≤ 90) : c.toLower.toNat = c.toNat + 32 := by
  rw [Char.toLower]
  simp only [ge_iff_le, h, and_self, if_true]
  exact toNat_ofNat_valid (Or.inl (by omega))

theorem toLower_of_not_upper {c : Char}
    (h : ¬(65 ≤ c.toNat ∧ c.toNat ≤ 90)) : c.toLower = c := by
  rw [Char.toLower]
  simp only [ge_iff_le, h, if_false]

/-- ASCII case folding is idempotent. -/
theorem toLower_idem (c : Char) : c.toLower.toLower = c.toLower := by
  by_cases h : 65 ≤ c.toNat ∧ c.toNat ≤ 90
  · have hn := toLower_toNat_of_upper h
    refine toLower_of_not_upper ?_
    omega
  · rw [toLower_of_not_upper h, toLower_of_not_upper h]

theorem word_not_space {c : Char} (h : isWordChar c = true) :
    isSpaceChar c = false := by
  cases hs : isSpaceChar c
  · rfl
  · exfalso
    simp only [isSpaceChar, Char.isWhitespace, Bool.or_eq_true, decide_eq_true_eq] at hs
    rcases hs with ((rfl | rfl) | rfl) | rfl <;> exact absurd h (by decide)

theorem map_id_of_mem {α : Type} (f : α → α) :
    ∀ (l : List α), (∀ c ∈ l, f c = c) → l.map f = l
  | [], _ => rfl
  | c :: cs, h => by
    simp only [List.map_cons, h c (List.mem_cons_self c cs),
      map_id_of_mem f cs (fun d hd => h d (List.mem_cons_of_mem c hd))]

/-! ### Stage lemmas for `replCrlf` -/

theorem mem_replCrlf {c : Char} :
    ∀ {l : List Char}, c ∈ replCrlf l → c ∈ l ∨ c = '\n' := by
  intro l
  induction l using replCrlf.induct with
  | case1 => intro h; exact absurd h (by simp [replCrlf])
  | case2 d =>
    intro h
    rw [replCrlf] at h
    exact Or.inl h
  | case3 c d cs hcd ih =>
    intro h
    rw [replCrlf, if_pos hcd] at h
    rcases List.mem_cons.mp h with h1 | h2
    · exact Or.inr h1
    · rcases ih h2 with h3 | h3
      · exact Or.inl (List.mem_cons_of_mem _ (List.mem_cons_of_mem _ h3))
      · exact Or.inr h3
  | case4 c d cs hcd ih =>
    intro h
    rw [replCrlf, if_neg hcd] at h
    rcases List.mem_cons.mp h with h1 | h2
    · exact Or.inl (h1 ▸ List.mem_cons_self c _)
    · rcases ih h2 with h3 | h3
      · exact Or.inl (List.mem_cons_of_mem _ h3)
      · exact Or.inr h3

theorem replCrlf_id :
    ∀ {l : List Char}, (∀ c ∈ l, c ≠ '\r') → replCrlf l = l := by
  intro l
  induction l using replCrlf.induct with
  | case1 => intro _; rfl
  | case2 d => intro _; rfl
  | case3 c d cs hcd ih =>
    intro h
    exact absurd hcd.1 (h c (List.mem_cons_self c _))
  | case4 c d cs hcd ih =>
    intro h
    rw [replCrlf, if_neg hcd, ih (fun e he => h e (List.mem_cons_of_mem c he))]

/-! ### Stage lemmas for `collapseGo` -/

theorem mem_collapseGo {p : Char → Bool} {r : Char} {c : Char} :
    ∀ {l : List Char} {b : Bool},
      c ∈ collapseGo p r b l → c = r ∨ (c ∈ l ∧ p c = false) := by
  intro l
  induction l with
  | nil => intro b h; exact absurd h (by simp [collapseGo])
  | cons d cs ih =>
    intro b h
    by_cases hp : p d = true
    · rw [collapseGo, if_pos hp] at h
      cases b with
      | true =>
        rcases ih h with h1 | ⟨h2, h3⟩
        · exact Or.inl h1
        · exact Or.inr ⟨List.mem_cons_of_mem d h2, h3⟩
      | false =>
        rcases List.mem_cons.mp h with h1 | h2
        · exact Or.inl h1
        · rcases ih h2 with h1 | ⟨h2, h3⟩
          · exact Or.inl h1
          · exact Or.inr ⟨List.mem_cons_of_mem d h2, h3⟩
    · rw [collapseGo, if_neg hp] at h
      rcases List.mem_cons.mp h with h1 | h2
      · exact Or.inr ⟨h1 ▸ List.mem_cons_self d _, h1 ▸ Bool.of_not_eq_true hp⟩
      · rcases ih h2 with h1 | ⟨h2, h3⟩
        · exact Or.inl h1
        · exact Or.inr ⟨List.mem_cons_of_mem d h2, h3⟩

theorem collapseGo_id (p : Char → Bool) (r : Char) :
    ∀ (l : List Char) (b : Bool), (∀ c ∈ l, p c = false) →
      collapseGo p r b l = l := by
  intro l
  induction l with
  | nil => intro b _; rfl
  | cons d cs ih =>
    intro b h
    rw [collapseGo, if_neg (by simp [h d (List.mem_cons_self d _)]),
      ih false (fun e he => h e (List.mem_cons_of_mem d he))]

theorem collapseGo_chain (p : Char → Bool) (r : Char) :
    ∀ (l : List Char) (b : Bool),
      List.Chain' (fun a c => ¬(p a = true ∧ p c = true)) (collapseGo p r b l) ∧
      (b = true → ∀ c ∈ (collapseGo p r b l).head?, p c = false) := by
  intro l
  induction l with
  | nil => intro b; exact ⟨List.chain'_nil, fun _ c hc => by simp [collapseGo] at hc⟩
  | cons d cs ih =>
    intro b
    by_cases hp : p d = true
    · cases b with
      | true =>
        rw [collapseGo, if_pos hp]
        exact ⟨(ih true).1, fun _ => (ih true).2 rfl⟩
      | false =>
        rw [collapseGo, if_pos hp]
        refine ⟨List.chain'_cons'.mpr ⟨?_, (ih true).1⟩, fun h => absurd h (by simp)⟩
        intro y hy hcon
        exact absurd hcon.2 (by simp [(ih true).2 rfl y hy])
    · rw [collapseGo, if_neg hp]
      refine ⟨List.chain'_cons'.mpr ⟨?_, (ih false).1⟩, ?_⟩
      · intro y _ hcon
        exact hp hcon.1
      · intro _ c hc
        rw [List.head?_cons, Option.mem_some_iff] at hc
        exact hc ▸ Bool.of_not_eq_true hp

theorem collapseGo_id2 (p : Char → Bool) (r : Char) :
    ∀ (l : List Char) (b : Bool),
      (∀ c ∈ l, p c = true → c = r) →
      List.Chain' (fun a c => ¬(p a = true ∧ p c = true)) l →
      (b = true → ∀ c ∈ l.head?, p c = false) →
      collapseGo p r b l = l := by
  intro l
  induction l with
  | nil => intro b _ _ _; rfl
  | cons d cs ih =>
    intro b h1 h2 h3
    by_cases hp : p d = true
    · cases b with
      | true =>
        exact absurd hp (by simp [h3 rfl d (by simp)])
      | false =>
        rw [collapseGo, if_pos hp]
        have hd : d = r := h1 d (List.mem_cons_self d _) hp
        have hcs : collapseGo p r true cs = cs := by
          refine ih true (fun e he hpe => h1 e (List.mem_cons_of_mem d he) hpe)
            (List.chain'_cons'.mp h2).2 ?_
          intro _ c hc
          have := (List.chain'_cons'.mp h2).1 c hc
          cases hpc : p c
          · rfl
          · exact absurd ⟨hp, hpc⟩ this
        rw [hd, hcs]
        simp
    · rw [collapseGo, if_neg hp,
        ih false (fun e he hpe => h1 e (List.mem_cons_of_mem d he) hpe)
          (List.chain'_cons'.mp h2).2 (fun h => absurd h (by simp))]

/-! ### Stage lemmas for `trim` -/

theorem head?_dropWhile_false {α : Type} (p : α → Bool) :
    ∀ (l : List α), ∀ c ∈ (l.dropWhile p).head?, p c = false := by
  intro l
  induction l with
  | nil => intro c hc; simp at hc
  | cons d cs ih =>
    intro c hc
    rw [List.dropWhile_cons] at hc
    by_cases hp : p d = true
    · rw [if_pos hp] at hc
      exact ih c hc
    · rw [if_neg hp, List.head?_cons, Option.mem_some_iff] at hc
      exact hc ▸ Bool.of_not_eq_true hp

theorem dropWhile_eq_self_of_head {α : Type} (p : α → Bool) (l : List α)
    (h : ∀ c ∈ l.head?, p c = false) : l.dropWhile p = l := by
  cases l with
  | nil => rfl
  | cons d cs =>
    rw [List.dropWhile_cons, if_neg (by simp [h d (by simp)])]

theorem getLast?_dropWhile {α : Type} (p : α → Bool) (l : List α)
    (hne : l.dropWhile p ≠ []) : (l.dropWhile p).getLast? = l.getLast? := by
  conv_rhs => rw [← List.takeWhile_append_dropWhile p l]
  rw [List.getLast?_append]
  cases hu : (l.dropWhile p).getLast? with
  | none => exact absurd (List.getLast?_eq_none_iff.mp hu) hne
  | some a => rfl

theorem mem_trim {c : Char} {l : List Char} (h : c ∈ trim l) : c ∈ l := by
  unfold trim at h
  rw [List.mem_reverse] at h
  have h1 := (List.dropWhile_sublist isSpaceChar).mem h
  rw [List.mem_reverse] at h1
  exact (List.dropWhile_sublist isSpaceChar).mem h1

theorem trim_getLast (l : List Char) :
    ∀ c ∈ (trim l).getLast?, isSpaceChar c = false := by
  intro c hc
  unfold trim at hc
  rw [List.getLast?_reverse] at hc
  exact head?_dropWhile_false isSpaceChar _ c hc

theorem trim_head (l : List Char) :
    ∀ c ∈ (trim l).head?, isSpaceChar c = false := by
  intro c hc
  unfold trim at hc
  rw [List.head?_reverse] at hc
  by_cases hne : (l.dropWhile isSpaceChar).reverse.dropWhile isSpaceChar = []
  · rw [hne] at hc; simp at hc
  · rw [getLast?_dropWhile isSpaceChar _ hne, List.getLast?_reverse] at hc
    exact head?_dropWhile_false isSpaceChar _ c hc

theorem trim_id (l : List Char)
    (h1 : ∀ c ∈ l.head?, isSpaceChar c = false)
    (h2 : ∀ c ∈ l.getLast?, isSpaceChar c = false) : trim l = l := by
  unfold trim
  rw [dropWhile_eq_self_of_head isSpaceChar l h1,
    dropWhile_eq_self_of_head isSpaceChar l.reverse
      (by rw [List.head?_reverse]; exact h2),
    List.reverse_reverse]

theorem chain'_of_suffix {α : Type} {R : α → α → Prop} {t u : List α}
    (h : List.Chain' R (t ++ u)) : List.Chain' R u :=
  (List.chain'_append.mp h).2.1

theorem trim_chain {R : Char → Char → Prop}
    {l : List Char} (h : List.Chain' R l) : List.Chain' R (trim l) := by
  unfold trim
  have h1 : List.Chain' R (l.dropWhile isSpaceChar) := by
    refine chain'_of_suffix (t := l.takeWhile isSpaceChar) ?_
    rw [List.takeWhile_append_dropWhile]
    exact h
  have h2 : List.Chain' (flip R) (l.dropWhile isSpaceChar).reverse :=
    List.chain'_reverse.mpr (h1.imp (fun a b hab => hab))
  have h3 : List.Chain' (flip R)
      ((l.dropWhile isSpaceChar).reverse.dropWhile isSpaceChar) := by
    refine chain'_of_suffix
      (t := (l.dropWhile isSpaceChar).reverse.takeWhile isSpaceChar) ?_
    rw [List.takeWhile_append_dropWhile]
    exact h2
  exact List.chain'_reverse.mpr h3

/-! ### Shape of normalized text -/

theorem normalize_mem {x : List Char} :
    ∀ c ∈ normalize x, (isWordChar c = true ∨ c = ' ') ∧ c.toLower = c := by
  intro c hc
  have hc1 := mem_trim hc
  rcases mem_collapseGo (hc1 : c ∈ collapseGo isSpaceChar ' ' false _)
    with rfl | ⟨hc2, hsp⟩
  · exact ⟨Or.inr rfl, by decide⟩
  · rcases mem_collapseGo (hc2 : c ∈ collapseGo isJunk ' ' false _)
      with rfl | ⟨hc3, hj⟩
    · exact ⟨Or.inr rfl, by decide⟩
    · have hword : isWordChar c = true := by
        have hj2 : (isWordChar c || isSpaceChar c) = true := by
          cases hb : (isWordChar c || isSpaceChar c)
          · rw [isJunk, hb] at hj; simp at hj
          · rfl
        rcases Bool.or_eq_true_iff.mp hj2 with hw | hs
        · exact hw
        · exact absurd hs (by simp [hsp])
      refine ⟨Or.inl hword, ?_⟩
      rcases mem_replCrlf hc3 with hc4 | rfl
      · rcases List.mem_map.mp hc4 with ⟨a, _, rfl⟩
        exact toLower_idem a
      · exact absurd hword (by decide)

theorem normalize_space_eq {x : List Char} :
    ∀ c ∈ normalize x, isSpaceChar c = true → c = ' ' := by
  intro c hc hs
  rcases (normalize_mem c hc).1 with hw | rfl
  · exact absurd hs (by simp [word_not_space hw])
  · rfl

theorem normalize_chain (x : List Char) :
    List.Chain'
      (fun a c => ¬(isSpaceChar a = true ∧ isSpaceChar c = true))
      (normalize x) := by
  unfold normalize collapseRuns
  exact trim_chain (collapseGo_chain isSpaceChar ' ' _ false).1

/-- Claim C9.  The normalization pipeline (lowercase, CRLF to LF,
non-alphanumeric runs to a space, whitespace collapse, trim) is idempotent:
`normalize(normalize(x)) = normalize(x)` for every string. -/
theorem normalize_idem (x : List Char) :
    normalize (normalize x) = normalize x := by
  have hmem := normalize_mem (x := x)
  have hlower : (normalize x).map Char.toLower = normalize x :=
    map_id_of_mem Char.toLower _ (fun c hc => (hmem c hc).2)
  have hnocr : ∀ c ∈ normalize x, c ≠ '\r' := by
    intro c hc
    rcases (hmem c hc).1 with hw | rfl
    · intro hr
      exact absurd hw (by rw [hr]; decide)
    · decide
  have h3 : collapseRuns isJunk ' ' (normalize x) = normalize x := by
    refine collapseGo_id isJunk ' ' _ false (fun c hc => ?_)
    rcases (hmem c hc).1 with hw | rfl
    · simp [isJunk, hw]
    · decide
  have h4 : collapseRuns isSpaceChar ' ' (normalize x) = normalize x := by
    refine collapseGo_id2 isSpaceChar ' ' _ false
      (fun c hc hs => normalize_space_eq c hc hs) (normalize_chain x) ?_
    intro h
    exact absurd h (by simp)
  have h5 : trim (normalize x) = normalize x :=
    trim_id _ (trim_head _) (trim_getLast _)
  show trim (collapseRuns isSpaceChar ' '
      (collapseRuns isJunk ' ' (replCrlf ((normalize x).map Char.toLower))))
    = normalize x
  rw [hlower, replCrlf_id hnocr, h3, h4, h5]

/-! ## MinHash signature facts (claim C7) -/

theorem foldl_min_spec (f : Nat → Nat) :
    ∀ (l : List Nat) (init : Nat),
      (l.foldl (fun mn x => min mn (f x)) init ≤ init) ∧
      (∀ x ∈ l, l.foldl (fun mn x => min mn (f x)) init ≤ f x) ∧
      (l.foldl (fun mn x => min mn (f x)) init = init ∨
        ∃ x ∈ l, l.foldl (fun mn x => min mn (f x)) init = f x) := by
  intro l
  induction l with
  | nil => intro init; exact ⟨le_refl _, by simp, Or.inl rfl⟩
  | cons d cs ih =>
    intro init
    have hfold : (d :: cs).foldl (fun mn x => min mn (f x)) init
        = cs.foldl (fun mn x => min mn (f x)) (min init (f d)) := rfl
    obtain ⟨ih1, ih2, ih3⟩ := ih (min init (f d))
    refine ⟨hfold ▸ le_trans ih1 (min_le_left _ _), ?_, ?_⟩
    · intro x hx
      rcases List.mem_cons.mp hx with rfl | hx2
      · exact hfold ▸ le_trans ih1 (min_le_right _ _)
      · exact hfold ▸ ih2 x hx2
    · rw [hfold]
      rcases ih3 with he | ⟨x, hx, he⟩
      · rcases min_cases init (f d) with ⟨hm, _⟩ | ⟨hm, _⟩
        · exact Or.inl (he.trans hm)
        · exact Or.inr ⟨d, List.mem_cons_self d cs, he.trans hm⟩
      · exact Or.inr ⟨x, List.mem_cons_of_mem d hx, he⟩

theorem PRIME_pos : 0 < PRIME := by decide

/-- Claim C7. For every hash function, text, `k` and `numPerm`:
`minhashSignature` returns exactly `numPerm` entries; when the distinct
k-gram hash set `S` is empty every entry is the sentinel `P = 2^61 - 1`; and
otherwise entry `i` is the minimum over `x ∈ S` of
`((1 + (i*7919 % 100000)) * x + (1 + (i*104729 % 100000))) % P` — expressed
as: some hash in the k-gram hash list attains the entry, and the entry is a
lower bound of all of them.  Proved for all `k` and `numPerm`, which covers
the claim's `k ≥ 1`, `numPerm ≥ 1`. -/
theorem minhash_spec (h : List Char → Nat) (text : List Char)
    (k numPerm : Nat) :
    (minhashSignature h text k numPerm).length = numPerm ∧
    (hpList h text k = [] →
      minhashSignature h text k numPerm = List.replicate numPerm PRIME) ∧
    (hpList h text k ≠ [] → ∀ i, i < numPerm →
      (∃ x ∈ hpList h text k,
        (minhashSignature h text k numPerm).getD i 0
          = (aCoef i * x + bCoef i) % PRIME) ∧
      (∀ x ∈ hpList h text k,
        (minhashSignature h text k numPerm).getD i 0
          ≤ (aCoef i * x + bCoef i) % PRIME)) := by
  refine ⟨?_, ?_, ?_⟩
  · rw [minhashSignature]
    by_cases he : ((hpList h text k).dedup).length = 0
    · rw [if_pos he, List.length_replicate]
    · rw [if_neg he, List.length_map, List.length_range]
  · intro he
    rw [minhashSignature, if_pos (by rw [he]; rfl)]
  · intro hne i hi
    have hne2 : ¬(((hpList h text k).dedup).length = 0) := by
      intro h0
      exact hne ((List.dedup_eq_nil _).mp (List.length_eq_zero.mp h0))
    have hlen : (minhashSignature h text k numPerm).length = numPerm := by
      rw [minhashSignature, if_neg hne2, List.length_map, List.length_range]
    have hget : (minhashSignature h text k numPerm).getD i 0
        = ((hpList h text k).dedup).foldl
            (fun mn x => min mn ((aCoef i * x + bCoef i) % PRIME)) PRIME := by
      rw [List.getD_eq_getElem _ _ (by rw [hlen]; exact hi)]
      simp only [minhashSignature, if_neg hne2]
      rw [List.getElem_map, List.getElem_range]
    obtain ⟨hle, hbound, hatt⟩ :=
      foldl_min_spec (fun x => (aCoef i * x + bCoef i) % PRIME)
        ((hpList h text k).dedup) PRIME
    constructor
    · rcases hatt with he | ⟨x, hx, he⟩
      · exfalso
        obtain ⟨x0, hx0⟩ := List.exists_mem_of_ne_nil
          ((hpList h text k).dedup) (fun h0 => hne2 (by rw [h0]; rfl))
        have h1 := hbound x0 hx0
        rw [he] at h1
        exact absurd (lt_of_le_of_lt h1 (Nat.mod_lt _ PRIME_pos))
          (lt_irrefl _)
      · exact ⟨x, List.mem_dedup.mp hx, hget ▸ he⟩
    · intro x hx
      exact hget ▸ hbound x (List.mem_dedup.mpr hx)

/-! ## Winnowing on too-short inputs (claim C10) -/

/-- Claim C10. When the normalized text has at least one k-gram but fewer than
`max(1, w)` of them, the window loop `for (i = 0; i <= hashes.length -
windowSize; i++)` never runs (the JS bound is negative), so `winnow` returns
the empty sequence — and consequently `fingerprintSimilarity` of two such
identical texts is 0 (empty-input guard), not 1. -/
theorem winnow_nil_of_short (h : List Char → Nat) (text : List Char)
    (k w : Nat) (h1 : 0 < (makeKgrams text k).length)
    (h2 : (makeKgrams text k).length < max 1 w) :
    winnow h text k w = [] ∧
    fingerprintSimilarity (winnow h text k w) (winnow h text k w) = 0 := by
  have hz : ((makeKgrams text k).map
      (fun g => (h g.1, g.2))).length + 1 - max 1 w = 0 := by
    rw [List.length_map]
    omega
  have hwin : winnow h text k w = [] := by
    rw [winnow, if_neg (by omega)]
    simp only [hz, List.range_zero, List.foldl_nil]
  exact ⟨hwin, by rw [hwin]; rfl⟩

/-- Witness for claim C10 at `h = length`, `text = "abc"`, `k = 1`, `w = 5`:
three k-grams, window size 5. -/
theorem winnow_nil_of_short_witness :
    winnow List.length ("abc".toList) 1 5 = [] ∧
    fingerprintSimilarity (winnow List.length ("abc".toList) 1 5)
      (winnow List.length ("abc".toList) 1 5) = 0 :=
  winnow_nil_of_short List.length ("abc".toList) 1 5 (by decide) (by decide)

theorem fam_lb (H : Nat → Nat) : ∀ (m a : Nat), a ≤ fam H a m := by
  intro m
  induction m with
  | zero => intro a; exact le_refl a
  | succ m ih =>
    intro a
    rw [fam]
    by_cases hc : H a ≤ H (fam H (a + 1) m)
    · rw [if_pos hc]
    · rw [if_neg hc]
      exact le_trans (Nat.le_succ a) (ih (a + 1))

theorem fam_ub (H : Nat → Nat) : ∀ (m a : Nat), fam H a m ≤ a + m := by
  intro m
  induction m with
  | zero => intro a; exact Nat.le_add_right a 0
  | succ m ih =>
    intro a
    rw [fam]
    by_cases hc : H a ≤ H (fam H (a + 1) m)
    · rw [if_pos hc]; omega
    · rw [if_neg hc]
      have := ih (a + 1)
      omega

theorem fam_min (H : Nat → Nat) :
    ∀ (m a j : Nat), a ≤ j → j ≤ a + m → H (fam H a m) ≤ H j := by
  intro m
  induction m with
  | zero =>
    intro a j h1 h2
    have : j = a := by omega
    rw [this, fam]
  | succ m ih =>
    intro a j h1 h2
    rw [fam]
    by_cases hc : H a ≤ H (fam H (a + 1) m)
    · rw [if_pos hc]
      rcases Nat.eq_or_lt_of_le h1 with rfl | hgt
      · exact le_refl _
      · exact le_trans hc (ih (a + 1) j hgt (by omega))
    · rw [if_neg hc]
      rcases Nat.eq_or_lt_of_le h1 with rfl | hgt
      · exact le_of_lt (lt_of_not_le hc)
      · exact ih (a + 1) j hgt (by omega)

theorem fam_first (H : Nat → Nat) :
    ∀ (m a j : Nat), a ≤ j → j < fam H a m → H (fam H a m) < H j := by
  intro m
  induction m with
  | zero =>
    intro a j h1 h2
    rw [fam] at h2
    omega
  | succ m ih =>
    intro a j h1 h2
    rw [fam] at h2 ⊢
    by_cases hc : H a ≤ H (fam H (a + 1) m)
    · rw [if_pos hc] at h2
      omega
    · rw [if_neg hc] at h2 ⊢
      rcases Nat.eq_or_lt_of_le h1 with rfl | hgt
      · exact lt_of_not_le hc
      · exact ih (a + 1) j hgt h2

theorem fam_step (H : Nat → Nat) (m a : Nat) :
    fam H a m ≤ fam H (a + 1) m := by
  by_contra hcon
  push_neg at hcon
  have hq1 : a + 1 ≤ fam H (a + 1) m := fam_lb H m (a + 1)
  have hp2 : fam H a m ≤ a + m := fam_ub H m a
  have h1 : H (fam H (a + 1) m) ≤ H (fam H a m) :=
    fam_min H m (a + 1) (fam H a m) (by omega) (by omega)
  have h2 : H (fam H a m) < H (fam H (a + 1) m) :=
    fam_first H m a (fam H (a + 1) m) (by omega) hcon
  omega

theorem fam_mono (H : Nat → Nat) (m : Nat) :
    ∀ {i j : Nat}, i ≤ j → fam H i m ≤ fam H j m := by
  intro i j hij
  induction hij with
  | refl => exact le_refl _
  | step h ih => exact le_trans ih (fam_step H m _)

/-! ### `range'` bookkeeping -/

theorem range'_drop :
    ∀ (m a i : Nat), (List.range' a m).drop i = List.range' (a + i) (m - i) := by
  intro m
  induction m with
  | zero => intro a i; simp
  | succ m ih =>
    intro a i
    cases i with
    | zero => simp
    | succ i =>
      rw [List.range'_succ, List.drop_succ_cons, ih (a + 1) i]
      congr 1 <;> omega

theorem range'_take :
    ∀ (m a j : Nat), (List.range' a m).take j = List.range' a (min j m) := by
  intro m
  induction m with
  | zero => intro a j; simp
  | succ m ih =>
    intro a j
    cases j with
    | zero => simp
    | succ j =>
      rw [List.range'_succ, List.take_succ_cons, ih (a + 1) j]
      rw [show min (j + 1) (m + 1) = min j m + 1 by omega, List.range'_succ]

theorem window_eq {α : Type} (f : Nat → α) (n i ws : Nat) (hin : i + ws ≤ n) :
    (((List.range n).map f).drop i).take ws = (List.range' i ws).map f := by
  rw [← List.map_drop, ← List.map_take, List.range_eq_range', range'_drop,
    range'_take]
  congr 2 <;> omega

/-! ### The window minimum is the leftmost argmin -/

theorem pickMin_range (H : Nat → Nat) :
    ∀ (m a : Nat) (c : Nat × Nat),
      pickMin ((List.range' a (m + 1)).map (fun j => (H j, j))) c
        = if H (fam H a m) < c.1 then (H (fam H a m), fam H a m) else c := by
  intro m
  induction m with
  | zero =>
    intro a c
    rw [show List.range' a 1 = [a] from rfl]
    rw [List.map_cons, List.map_nil, pickMin, pickMin, fam]
  | succ m ih =>
    intro a c
    rw [List.range'_succ, List.map_cons, pickMin]
    by_cases h1 : H a < c.1
    · rw [if_pos (show ((H a, a) : Nat × Nat).1 < c.1 from h1), ih (a + 1)]
      by_cases h2 : H a ≤ H (fam H (a + 1) m)
      · rw [show fam H a (m + 1) = a from by rw [fam, if_pos h2]]
        rw [if_neg (show ¬(H (fam H (a + 1) m) < ((H a, a) : Nat × Nat).1) by
          simp only []; omega)]
        rw [if_pos h1]
      · rw [show fam H a (m + 1) = fam H (a + 1) m from by rw [fam, if_neg h2]]
        rw [if_pos (show H (fam H (a + 1) m) < ((H a, a) : Nat × Nat).1 by
          simp only []; omega)]
        rw [if_pos (by omega)]
    · rw [if_neg (show ¬(((H a, a) : Nat × Nat).1 < c.1) from h1), ih (a + 1)]
      by_cases h2 : H a ≤ H (fam H (a + 1) m)
      · rw [show fam H a (m + 1) = a from by rw [fam, if_pos h2]]
        rw [if_neg (by omega), if_neg (by omega)]
      · rw [show fam H a (m + 1) = fam H (a + 1) m from by rw [fam, if_neg h2]]

theorem pick_window (H : Nat → Nat) (i ws : Nat) (hws : 1 ≤ ws) :
    pickFirstMin ((List.range' i ws).map (fun j => (H j, j)))
      = some (H (fam H i (ws - 1)), fam H i (ws - 1)) := by
  obtain ⟨m, rfl⟩ : ∃ m, ws = m + 1 := ⟨ws - 1, by omega⟩
  rw [List.range'_succ, List.map_cons, pickFirstMin]
  cases m with
  | zero =>
    rw [show List.range' (i + 1) 0 = [] from rfl, List.map_nil, pickMin]
    rfl
  | succ m =>
    rw [pickMin_range H m (i + 1) (H i, i)]
    rw [show m + 1 + 1 - 1 = m + 1 from rfl]
    by_cases h2 : H i ≤ H (fam H (i + 1) m)
    · rw [if_neg (show ¬(H (fam H (i + 1) m) < ((H i, i) : Nat × Nat).1) by
        simp only []; omega)]
      rw [show fam H i (m + 1) = i from by rw [fam, if_pos h2]]
    · rw [if_pos (show H (fam H (i + 1) m) < ((H i, i) : Nat × Nat).1 by
        simp only []; omega)]
      rw [show fam H i (m + 1) = fam H (i + 1) m from by rw [fam, if_neg h2]]

theorem foldl_congr_mem {α β : Type} :
    ∀ (l : List α) (f g : β → α → β),
      (∀ b, ∀ a ∈ l, f b a = g b a) → ∀ init, l.foldl f init = l.foldl g init := by
  intro l
  induction l with
  | nil => intro f g _ init; rfl
  | cons d cs ih =>
    intro f g hfg init
    rw [List.foldl_cons, List.foldl_cons, hfg init d (List.mem_cons_self d cs),
      ih f g (fun b a ha => hfg b a (List.mem_cons_of_mem d ha))]

theorem dedup_fold_chain :
    ∀ (ms : List (Nat × Nat)) (acc : List Fingerprint)
      (last : Option (Nat × Nat)),
      List.Chain' (fun a b => a.pos ≤ b.pos ∧ a ≠ b) acc →
      (last = none → acc = []) →
      (∀ m0, last = some m0 → acc.getLast? = some ⟨m0.1, m0.2⟩) →
      (∀ m0, last = some m0 → ∀ x ∈ ms, m0.2 ≤ x.2) →
      List.Pairwise (fun a b => a.2 ≤ b.2) ms →
      List.Chain' (fun a b => a.pos ≤ b.pos ∧ a ≠ b)
        ((ms.foldl dedupStep (acc, last)).1) := by
  intro ms
  induction ms with
  | nil => intro acc last hch _ _ _ _; exact hch
  | cons m ms ih =>
    intro acc last hch hnone hlast hbound hpw
    rw [List.foldl_cons]
    by_cases heq : last = some m
    · rw [dedupStep, if_pos heq]
      exact ih acc last hch hnone hlast
        (fun m0 hm0 x hx => hbound m0 hm0 x (List.mem_cons_of_mem m hx))
        hpw.of_cons
    · rw [dedupStep, if_neg heq]
      have hch2 : List.Chain' (fun a b => a.pos ≤ b.pos ∧ a ≠ b)
          (acc ++ [⟨m.1, m.2⟩]) := by
        rw [List.chain'_append]
        refine ⟨hch, List.chain'_singleton _, ?_⟩
        intro x hx y hy
        cases hl : last with
        | none =>
          rw [hnone hl, List.getLast?_nil] at hx
          exact absurd hx (by simp)
        | some m0 =>
          rw [hlast m0 hl] at hx
          rw [List.head?_cons] at hy
          rw [Option.mem_some_iff] at hx hy
          subst hx
          subst hy
          refine ⟨hbound m0 hl m (List.mem_cons_self m ms), ?_⟩
          intro hcon
          apply heq
          rw [hl]
          have h1 := congrArg Fingerprint.hash hcon
          have h2 := congrArg Fingerprint.pos hcon
          simp only [] at h1 h2
          rw [show m0 = m from Prod.ext h1 h2]
      refine ih (acc ++ [⟨m.1, m.2⟩]) (some m) hch2
        (fun hcon => absurd hcon (by simp)) ?_ ?_ hpw.of_cons
      · intro m0 hm0
        rw [Option.some_inj] at hm0
        rw [← hm0, List.getLast?_concat]
      · intro m0 hm0 x hx
        rw [Option.some_inj] at hm0
        rw [← hm0]
        exact (List.pairwise_cons.mp hpw).1 x hx

/-- Claim C8. For every hash function, text, `k` and `w`, the fingerprint
sequence returned by `winnow` has non-decreasing positions and no two
adjacent elements share the same `(hash, pos)` pair.  (Positions of the
hashed k-grams coincide with their indices, each window picks its leftmost
minimum, those picks are monotone in the window start, and the dedup guard
makes adjacent appended pairs distinct.) -/
theorem winnow_chain (h : List Char → Nat) (text : List Char) (k w : Nat) :
    List.Chain' (fun a b => a.pos ≤ b.pos ∧ a ≠ b) (winnow h text k w) := by
  rw [winnow]
  by_cases hg : (makeKgrams text k).length = 0
  · rw [if_pos hg]
    exact List.chain'_nil
  · rw [if_neg hg]
    have hks : ¬((normalize text).length < k) := by
      intro hlt
      apply hg
      simp [makeKgrams, hlt]
    have hmk : makeKgrams text k
        = (List.range ((normalize text).length - k + 1)).map
            (fun i => (((normalize text).drop i).take k, i)) := by
      rw [makeKgrams]
      simp only [if_neg hks]
    set H : Nat → Nat := fun i => h (((normalize text).drop i).take k) with hH
    set n : Nat := (normalize text).length - k + 1 with hn
    have hhash : (makeKgrams text k).map (fun g => (h g.1, g.2))
        = (List.range n).map (fun i => (H i, i)) := by
      rw [hmk, List.map_map]
      rfl
    simp only [hhash, List.length_map, List.length_range]
    set ws := max 1 w with hws
    have hws1 : 1 ≤ ws := le_max_left 1 w
    have hstep : ∀ st, ∀ i ∈ List.range (n + 1 - ws),
        winnowStep ((List.range n).map (fun j => (H j, j))) ws st i
          = dedupStep st (H (fam H i (ws - 1)), fam H i (ws - 1)) := by
      intro st i hi
      have hin : i + ws ≤ n := by
        rw [List.mem_range] at hi
        omega
      rw [winnowStep, window_eq (fun j => (H j, j)) n i ws hin,
        pick_window H i ws hws1]
      rfl
    rw [foldl_congr_mem (List.range (n + 1 - ws)) _ _ hstep ([], none)]
    rw [show (fun (st : List Fingerprint × Option (Nat × Nat)) (i : Nat) =>
          dedupStep st (H (fam H i (ws - 1)), fam H i (ws - 1)))
        = (fun st i =>
          dedupStep st ((fun j => (H (fam H j (ws - 1)), fam H j (ws - 1))) i))
      from rfl]
    rw [← List.foldl_map
      (fun j => (H (fam H j (ws - 1)), fam H j (ws - 1))) dedupStep]
    apply dedup_fold_chain _ [] none List.chain'_nil (fun _ => rfl)
      (fun m0 hm0 => absurd hm0 (by simp))
      (fun m0 hm0 => absurd hm0 (by simp))
    rw [List.pairwise_map]
    exact (List.pairwise_lt_range _).imp
      (fun hij => fam_mono H (ws - 1) (le_of_lt hij))

/-! ## Span-builder invariants (claims C2, C5) -/

theorem mem_insertAsc {x m : RawMatch} :
    ∀ {l : List RawMatch}, x ∈ insertAsc m l → x = m ∨ x ∈ l := by
  intro l
  induction l with
  | nil => intro hx; rw [insertAsc] at hx; simpa using hx
  | cons d cs ih =>
    intro hx
    rw [insertAsc] at hx
    by_cases hc : m.aPos ≤ d.aPos
    · rw [if_pos hc] at hx
      rcases List.mem_cons.mp hx with h1 | h2
      · exact Or.inl h1
      · exact Or.inr h2
    · rw [if_neg hc] at hx
      rcases List.mem_cons.mp hx with h1 | h2
      · exact Or.inr (h1 ▸ List.mem_cons_self d cs)
      · rcases ih h2 with h3 | h3
        · exact Or.inl h3
        · exact Or.inr (List.mem_cons_of_mem d h3)

theorem insertAsc_pairwise (m : RawMatch) :
    ∀ (l : List RawMatch),
      List.Pairwise (fun a b => a.aPos ≤ b.aPos) l →
      List.Pairwise (fun a b => a.aPos ≤ b.aPos) (insertAsc m l) := by
  intro l
  induction l with
  | nil => intro _; exact List.pairwise_singleton _ m
  | cons d cs ih =>
    intro hl
    rw [insertAsc]
    obtain ⟨hd, hcs⟩ := List.pairwise_cons.mp hl
    by_cases hc : m.aPos ≤ d.aPos
    · rw [if_pos hc]
      refine List.pairwise_cons.mpr ⟨?_, hl⟩
      intro y hy
      rcases List.mem_cons.mp hy with rfl | hy2
      · exact hc
      · exact le_trans hc (hd y hy2)
    · rw [if_neg hc]
      refine List.pairwise_cons.mpr ⟨?_, ih hcs⟩
      intro y hy
      rcases mem_insertAsc hy with rfl | hy2
      · omega
      · exact hd y hy2

theorem sortMatches_pairwise :
    ∀ (l : List RawMatch),
      List.Pairwise (fun a b => a.aPos ≤ b.aPos) (sortMatches l) := by
  intro l
  induction l with
  | nil => exact List.Pairwise.nil
  | cons m ms ih => exact insertAsc_pairwise m (sortMatches ms) ih

theorem groupSpans_head_docStart (k : Nat) :
    ∀ (ms : List RawMatch) (cur : RawSpan),
      ∀ s ∈ (groupSpans k cur ms).head?, s.docStart = cur.docStart := by
  intro ms
  induction ms with
  | nil =>
    intro cur s hs
    rw [groupSpans, List.head?_cons, Option.mem_some_iff] at hs
    rw [hs]
  | cons m ms ih =>
    intro cur s hs
    rw [groupSpans] at hs
    by_cases hc : m.aPos ≤ cur.docEnd + k
    · rw [if_pos hc] at hs
      exact ih ⟨cur.docStart, m.aPos + k, cur.srcStart, m.bPos + k, cur.hash⟩
        s hs
    · rw [if_neg hc, List.head?_cons, Option.mem_some_iff] at hs
      rw [hs]

theorem groupSpans_chain (k : Nat) :
    ∀ (ms : List RawMatch) (cur : RawSpan),
      cur.docStart ≤ cur.docEnd →
      (∀ m ∈ ms, cur.docStart ≤ m.aPos) →
      List.Pairwise (fun a b => a.aPos ≤ b.aPos) ms →
      List.Chain' (fun s1 s2 => s1.docStart < s2.docStart)
        (groupSpans k cur ms) := by
  intro ms
  induction ms with
  | nil => intro cur _ _ _; exact List.chain'_singleton cur
  | cons m ms ih =>
    intro cur hse hfst hpw
    rw [groupSpans]
    obtain ⟨hd, hcs⟩ := List.pairwise_cons.mp hpw
    by_cases hc : m.aPos ≤ cur.docEnd + k
    · rw [if_pos hc]
      refine ih ⟨cur.docStart, m.aPos + k, cur.srcStart, m.bPos + k, cur.hash⟩
        ?_ (fun m2 hm2 => hfst m2 (List.mem_cons_of_mem m hm2)) hcs
      show cur.docStart ≤ m.aPos + k
      have := hfst m (List.mem_cons_self m ms)
      omega
    · rw [if_neg hc]
      refine List.chain'_cons'.mpr ⟨?_, ?_⟩
      · intro y hy
        have hy2 := groupSpans_head_docStart k ms
          ⟨m.aPos, m.aPos + k, m.bPos, m.bPos + k, m.hash⟩ y hy
        have hy3 : y.docStart = m.aPos := hy2
        omega
      · refine ih ⟨m.aPos, m.aPos + k, m.bPos, m.bPos + k, m.hash⟩
          (show m.aPos ≤ m.aPos + k by omega) ?_ hcs
        intro m2 hm2
        show m.aPos ≤ m2.aPos
        exact hd m2 hm2

theorem groupSpans_bounds (k : Nat) (hk : 1 ≤ k) :
    ∀ (ms : List RawMatch) (cur : RawSpan),
      cur.docStart < cur.docEnd →
      (∀ m ∈ ms, cur.docStart ≤ m.aPos) →
      List.Pairwise (fun a b => a.aPos ≤ b.aPos) ms →
      ∀ s ∈ groupSpans k cur ms, s.docStart < s.docEnd := by
  intro ms
  induction ms with
  | nil =>
    intro cur hlt _ _ s hs
    rw [groupSpans] at hs
    rcases List.mem_singleton.mp hs with rfl
    exact hlt
  | cons m ms ih =>
    intro cur hlt hfst hpw s hs
    rw [groupSpans] at hs
    obtain ⟨hd, hcs⟩ := List.pairwise_cons.mp hpw
    by_cases hc : m.aPos ≤ cur.docEnd + k
    · rw [if_pos hc] at hs
      refine ih ⟨cur.docStart, m.aPos + k, cur.srcStart, m.bPos + k, cur.hash⟩
        ?_ (fun m2 hm2 => hfst m2 (List.mem_cons_of_mem m hm2)) hcs s hs
      show cur.docStart < m.aPos + k
      have := hfst m (List.mem_cons_self m ms)
      omega
    · rw [if_neg hc] at hs
      rcases List.mem_cons.mp hs with rfl | hs2
      · exact hlt
      · refine ih ⟨m.aPos, m.aPos + k, m.bPos, m.bPos + k, m.hash⟩
          (show m.aPos < m.aPos + k by omega) ?_ hcs s hs2
        intro m2 hm2
        show m.aPos ≤ m2.aPos
        exact hd m2 hm2

/-- Claim C5 (amended). The spans emitted by one `buildMatchSpans` call are in
strictly ascending `docStart` order: raw matches are sorted by `aPos`, a
group's `docStart` never changes while it is extended, and a new group opens
strictly to the right of the previous one. -/
theorem buildMatchSpans_chain (fpA fpB : List Fingerprint) (k : Nat) :
    List.Chain' (fun s1 s2 => s1.doc_span_start < s2.doc_span_start)
      (buildMatchSpans fpA fpB k) := by
  rw [buildMatchSpans]
  split
  · exact List.chain'_nil
  · rename_i m ms heq
    rw [List.chain'_map]
    have hpw := sortMatches_pairwise (fpA.filterMap (fun a =>
      match fpB.find? (fun x => x.hash == a.hash) with
      | some b => some ⟨a.hash, a.pos, b.pos⟩
      | none => none))
    rw [heq] at hpw
    obtain ⟨hd, hcs⟩ := List.pairwise_cons.mp hpw
    exact groupSpans_chain k ms ⟨m.aPos, m.aPos + k, m.bPos, m.bPos + k, m.hash⟩
      (show m.aPos ≤ m.aPos + k by omega)
      (fun m2 hm2 => show m.aPos ≤ m2.aPos from hd m2 hm2) hcs

/-- Claim C2 (amended). For `k ≥ 1`, every span emitted by `buildMatchSpans`
satisfies `doc_span_start < doc_span_end` and `match_score ∈ [0, 1]`.  (The
claim's third conjunct `src_span_start < src_span_end` is refuted by
`buildMatchSpans_src_violation` below: merging keeps the first match's
`srcStart` but overwrites `srcEnd` with the newest match's `bPos + k`.) -/
theorem buildMatchSpans_good (fpA fpB : List Fingerprint) (k : Nat)
    (hk : 1 ≤ k) : (buildMatchSpans fpA fpB k).Forall SpanGood := by
  rw [List.forall_iff_forall_mem]
  intro s hs
  rw [buildMatchSpans] at hs
  split at hs
  · exact absurd hs (by simp)
  · rename_i m ms heq
    rcases List.mem_map.mp hs with ⟨rs, hrs, rfl⟩
    have hpw := sortMatches_pairwise (fpA.filterMap (fun a =>
      match fpB.find? (fun x => x.hash == a.hash) with
      | some b => some ⟨a.hash, a.pos, b.pos⟩
      | none => none))
    rw [heq] at hpw
    obtain ⟨hd, hcs⟩ := List.pairwise_cons.mp hpw
    have hlt : rs.docStart < rs.docEnd :=
      groupSpans_bounds k hk ms
        ⟨m.aPos, m.aPos + k, m.bPos, m.bPos + k, m.hash⟩
        (show m.aPos < m.aPos + k by omega)
        (fun m2 hm2 => show m.aPos ≤ m2.aPos from hd m2 hm2) hcs rs hrs
    refine ⟨hlt, ?_, min_le_left _ _⟩
    apply le_min
    · norm_num
    · apply div_nonneg
      · have hcast : (rs.docStart : ℚ) < (rs.docEnd : ℚ) := by
          exact_mod_cast hlt
        linarith
      · exact mul_nonneg (Nat.cast_nonneg _) (Nat.cast_nonneg _)

/-- Claim C2 (counterexample).  At `fpA = [(1,0),(2,1)]`,
`fpB = [(1,100),(2,0)]`, `k = 1` the two raw matches merge into a single
span whose `src_span_start = 100` exceeds its `src_span_end = 1`: the claim's
conjunct `srcStart < srcEnd` is false as stated. -/
theorem buildMatchSpans_src_violation :
    (buildMatchSpans [⟨1, 0⟩, ⟨2, 1⟩] [⟨1, 100⟩, ⟨2, 0⟩] 1).map
        (fun s => (s.doc_span_start, s.doc_span_end, s.src_span_start,
          s.src_span_end))
      = [(0, 2, 100, 1)] ∧ ¬((100 : Nat) < 1) := by
  constructor
  · decide
  · decide

/-- Witness for claim C2 (amended) at `fpA = [(1,0)]`, `fpB = [(1,3)]`,
`k = 1`. -/
theorem buildMatchSpans_good_witness :
    (buildMatchSpans [⟨1, 0⟩] [⟨1, 3⟩] 1).Forall SpanGood :=
  buildMatchSpans_good [⟨1, 0⟩] [⟨1, 3⟩] 1 (by decide)

/-- Reduction of one verification step when the candidate is found and meets
the threshold. -/
theorem verifyStep_some (h : List Char → Nat) (fpDoc : List Fingerprint)
    (k w : Nat) (thr : ℚ) (corpus : List CorpusDoc) (acc : ℚ × List MatchRow)
    (cand : Cand) (c : CorpusDoc)
    (hfind : corpus.find? (fun x => x.id_corpus == cand.id_corpus) = some c)
    (hthr : thr ≤
      fingerprintSimilarity fpDoc (winnow h (readTextSafe c.text) k w)) :
    verifyStep h fpDoc k w thr corpus acc cand
      = (max acc.1
          (fingerprintSimilarity fpDoc (winnow h (readTextSafe c.text) k w)),
         acc.2 ++
          ((buildMatchSpans fpDoc (winnow h (readTextSafe c.text) k w)
            k).take 50).map
            (fun s => ⟨cand.id_corpus, s.doc_span_start, s.doc_span_end,
              s.src_span_start, s.src_span_end,
              fingerprintSimilarity fpDoc (winnow h (readTextSafe c.text) k w),
              s.snippet_hash⟩)) := by
  rw [verifyStep]
  simp only [hfind]
  rw [if_pos hthr]

/-- Fold invariant for the verification loop: every queued `check_match` row
carries the document-level similarity of its candidate as `match_score`. -/
theorem verifyStep_rows_aux (h : List Char → Nat) (fpDoc : List Fingerprint)
    (k w : Nat) (thr : ℚ) (corpus : List CorpusDoc) :
    ∀ (cands : List Cand) (acc : ℚ × List MatchRow),
      (∀ r ∈ acc.2, ∃ c ∈ corpus, r.source_id = c.id_corpus ∧
        r.match_score = fingerprintSimilarity fpDoc
          (winnow h (readTextSafe c.text) k w) ∧ thr ≤ r.match_score) →
      ∀ r ∈ (cands.foldl (verifyStep h fpDoc k w thr corpus) acc).2,
        ∃ c ∈ corpus, r.source_id = c.id_corpus ∧
          r.match_score = fingerprintSimilarity fpDoc
            (winnow h (readTextSafe c.text) k w) ∧ thr ≤ r.match_score := by
  intro cands
  induction cands with
  | nil => intro acc hacc r hr; exact hacc r hr
  | cons cand cs ih =>
    intro acc hacc r hr
    rw [List.foldl_cons] at hr
    refine ih _ ?_ r hr
    intro r2 hr2
    rw [verifyStep] at hr2
    cases hfind : corpus.find? (fun x => x.id_corpus == cand.id_corpus) with
    | none =>
      simp only [hfind] at hr2
      exact hacc r2 hr2
    | some c =>
      simp only [hfind] at hr2
      by_cases hthr : thr ≤
          fingerprintSimilarity fpDoc (winnow h (readTextSafe c.text) k w)
      · rw [if_pos hthr] at hr2
        rcases List.mem_append.mp hr2 with hin | hin
        · exact hacc r2 hin
        · rcases List.mem_map.mp hin with ⟨s, _, rfl⟩
          refine ⟨c, List.mem_of_find?_eq_some hfind, ?_, rfl, hthr⟩
          show cand.id_corpus = c.id_corpus
          have hbeq : (c.id_corpus == cand.id_corpus) = true :=
            @List.find?_some CorpusDoc
              (fun x => x.id_corpus == cand.id_corpus) c corpus hfind
          exact (Nat.eq_of_beq_eq_true (by simpa using hbeq)).symm
      · rw [if_neg hthr] at hr2
        exact hacc r2 hr2

/-- Claim C1 (amended).  Every persisted `check_match` row's `match_score`
equals the document-level Jaccard similarity
`fingerprintSimilarity(fpDoc, fpC)` of its candidate (which also satisfies
the threshold) — not the span builder's per-span value: the route queues
`match_score: sim` for every span (checks.routes.ts line 190). -/
theorem verify_rows_score (h : List Char → Nat) (fpDoc : List Fingerprint)
    (k w : Nat) (thr : ℚ) (corpus : List CorpusDoc) (cands : List Cand) :
    (verifyCandidates h fpDoc k w thr corpus cands).2.Forall
      (fun r => ∃ c ∈ corpus, r.source_id = c.id_corpus ∧
        r.match_score = fingerprintSimilarity fpDoc
          (winnow h (readTextSafe c.text) k w) ∧ thr ≤ r.match_score) := by
  rw [List.forall_iff_forall_mem]
  exact verifyStep_rows_aux h fpDoc k w thr corpus cands (0, [])
    (fun r hr => absurd hr (by simp))

/-- Claim C1 (counterexample).  With `fpDoc = [(1,0),(2,1),(3,10)]`, `k = 2`,
`w = 1` and a corpus document `"abc"` whose Winnowing fingerprints are
`[(1,0),(2,1)]`, the single persisted row carries `match_score = 2/3` (the
document-level similarity) while the span builder's per-span value
`min(1, (docEnd - docStart) / (|fpA| * k)) = min(1, 3/6)` for the same span
is `1/2`: a persisted row's `match_score` differs from the span value. -/
theorem verify_rows_score_cex :
    ((verifyCandidates hashAB [⟨1, 0⟩, ⟨2, 1⟩, ⟨3, 10⟩] 2 1 0
        [⟨7, [], some ['a', 'b', 'c']⟩] [⟨7, [], 0⟩]).2.map
      MatchRow.match_score = [2 / 3]) ∧
    ((buildMatchSpans [⟨1, 0⟩, ⟨2, 1⟩, ⟨3, 10⟩]
        (winnow hashAB (readTextSafe (some ['a', 'b', 'c'])) 2 1) 2).map
      MatchSpan.match_score = [1 / 2]) ∧
    ((2 : ℚ) / 3 ≠ 1 / 2) := by
  have hfp : winnow hashAB (readTextSafe (some ['a', 'b', 'c'])) 2 1
      = [⟨1, 0⟩, ⟨2, 1⟩] := by decide
  have hsim : fingerprintSimilarity [⟨1, 0⟩, ⟨2, 1⟩, ⟨3, 10⟩]
      [⟨1, 0⟩, ⟨2, 1⟩] = 2 / 3 := by
    rw [fingerprintSimilarity, if_neg (by decide),
      show setCount [⟨1, 0⟩, ⟨2, 1⟩, ⟨3, 10⟩] = 3 from by decide,
      show setCount [⟨1, 0⟩, ⟨2, 1⟩] = 2 from by decide,
      show interCount [⟨1, 0⟩, ⟨2, 1⟩, ⟨3, 10⟩] [⟨1, 0⟩, ⟨2, 1⟩] = 2
        from by decide,
      if_neg (by decide)]
    norm_num
  have hsp : buildMatchSpans [⟨1, 0⟩, ⟨2, 1⟩, ⟨3, 10⟩] [⟨1, 0⟩, ⟨2, 1⟩] 2
      = [⟨0, 3, 0, 3, min 1 (((3 : ℚ) - 0) / (3 * 2)), 1⟩] := by rfl
  refine ⟨?_, ?_, by norm_num⟩
  · rw [verifyCandidates, List.foldl_cons, List.foldl_nil,
      verifyStep_some hashAB [⟨1, 0⟩, ⟨2, 1⟩, ⟨3, 10⟩] 2 1 0
        [⟨7, [], some ['a', 'b', 'c']⟩] (0, []) ⟨7, [], 0⟩
        ⟨7, [], some ['a', 'b', 'c']⟩ (by decide)
        (by rw [hfp, hsim]; norm_num)]
    rw [hfp, hsim, hsp]
    rfl
  · rw [hfp, hsp]
    simp only [List.map_cons, List.map_nil]
    rw [show ((3 : ℚ) - 0) / (3 * 2) = 1 / 2 from by norm_num,
      min_eq_right (by norm_num : (1 : ℚ) / 2 ≤ 1)]

/-- Claim C5 (counterexample).  With two candidates, the concatenated
sequence of persisted rows (in insertion order) has document span starts
`[50, 0]`: the span sequence restarts at the second candidate, so the full
sequence across candidates is not ascending in `doc_span_start`. -/
theorem verify_rows_not_ascending :
    ((verifyCandidates hashChar [⟨1, 0⟩, ⟨2, 50⟩] 1 1 0
        [⟨9, [], some ['b']⟩, ⟨8, [], some ['a']⟩]
        [⟨9, [], 0⟩, ⟨8, [], 0⟩]).2.map
      MatchRow.doc_span_start = [50, 0]) ∧ ¬((50 : Nat) ≤ 0) := by
  have hfp9 : winnow hashChar (readTextSafe (some ['b'])) 1 1 = [⟨2, 0⟩] := by
    decide
  have hfp8 : winnow hashChar (readTextSafe (some ['a'])) 1 1 = [⟨1, 0⟩] := by
    decide
  have hsim9 : fingerprintSimilarity [⟨1, 0⟩, ⟨2, 50⟩] [⟨2, 0⟩] = 1 / 2 := by
    rw [fingerprintSimilarity, if_neg (by decide),
      show setCount [⟨1, 0⟩, ⟨2, 50⟩] = 2 from by decide,
      show setCount [⟨2, 0⟩] = 1 from by decide,
      show interCount [⟨1, 0⟩, ⟨2, 50⟩] [⟨2, 0⟩] = 1 from by decide,
      if_neg (by decide)]
    norm_num
  have hsim8 : fingerprintSimilarity [⟨1, 0⟩, ⟨2, 50⟩] [⟨1, 0⟩] = 1 / 2 := by
    rw [fingerprintSimilarity, if_neg (by decide),
      show setCount [⟨1, 0⟩, ⟨2, 50⟩] = 2 from by decide,
      show setCount [⟨1, 0⟩] = 1 from by decide,
      show interCount [⟨1, 0⟩, ⟨2, 50⟩] [⟨1, 0⟩] = 1 from by decide,
      if_neg (by decide)]
    norm_num
  constructor
  · rw [verifyCandidates, List.foldl_cons, List.foldl_cons, List.foldl_nil,
      verifyStep_some hashChar [⟨1, 0⟩, ⟨2, 50⟩] 1 1 0
        [⟨9, [], some ['b']⟩, ⟨8, [], some ['a']⟩] (0, []) ⟨9, [], 0⟩
        ⟨9, [], some ['b']⟩ (by decide) (by rw [hfp9, hsim9]; norm_num)]
    rw [verifyStep_some hashChar [⟨1, 0⟩, ⟨2, 50⟩] 1 1 0
        [⟨9, [], some ['b']⟩, ⟨8, [], some ['a']⟩] _ ⟨8, [], 0⟩
        ⟨8, [], some ['a']⟩ (by decide) (by rw [hfp8, hsim8]; norm_num)]
    rw [hfp9, hfp8]
    rfl
  · decide

/-! ## Candidate ordering (claim C4) -/

theorem mem_insertDesc {x m : Cand} :
    ∀ {l : List Cand}, x ∈ insertDesc m l → x = m ∨ x ∈ l := by
  intro l
  induction l with
  | nil => intro hx; rw [insertDesc] at hx; simpa using hx
  | cons d cs ih =>
    intro hx
    rw [insertDesc] at hx
    by_cases hc : d.approx ≤ m.approx
    · rw [if_pos hc] at hx
      rcases List.mem_cons.mp hx with h1 | h2
      · exact Or.inl h1
      · exact Or.inr h2
    · rw [if_neg hc] at hx
      rcases List.mem_cons.mp hx with h1 | h2
      · exact Or.inr (h1 ▸ List.mem_cons_self d cs)
      · rcases ih h2 with h3 | h3
        · exact Or.inl h3
        · exact Or.inr (List.mem_cons_of_mem d h3)

theorem mem_sortCandidates {x : Cand} :
    ∀ {l : List Cand}, x ∈ sortCandidates l → x ∈ l := by
  intro l
  induction l with
  | nil => intro hx; exact absurd hx (by simp [sortCandidates])
  | cons m ms ih =>
    intro hx
    rcases mem_insertDesc hx with h1 | h2
    · exact h1 ▸ List.mem_cons_self m ms
    · exact List.mem_cons_of_mem m (ih h2)

theorem insertDesc_code_order (m : Cand) :
    ∀ (l : List Cand),
      List.Pairwise (fun a b =>
        b.approx < a.approx ∨ (a.approx = b.approx ∧ b.id_corpus < a.id_corpus)) l →
      (∀ x ∈ l, x.id_corpus < m.id_corpus) →
      List.Pairwise (fun a b =>
        b.approx < a.approx ∨ (a.approx = b.approx ∧ b.id_corpus < a.id_corpus))
        (insertDesc m l) := by
  intro l
  induction l with
  | nil => intro _ _; exact List.pairwise_singleton _ m
  | cons d cs ih =>
    intro hl hid
    rw [insertDesc]
    obtain ⟨hd, hcs⟩ := List.pairwise_cons.mp hl
    by_cases hc : d.approx ≤ m.approx
    · rw [if_pos hc]
      refine List.pairwise_cons.mpr ⟨?_, hl⟩
      intro y hy
      have hyle : y.approx ≤ m.approx := by
        rcases List.mem_cons.mp hy with rfl | hy2
        · exact hc
        · rcases hd y hy2 with h1 | ⟨h1, _⟩
          · exact le_trans (le_of_lt h1) hc
          · exact le_trans (le_of_eq h1.symm) hc
      rcases lt_or_eq_of_le hyle with hlt | heq
      · exact Or.inl hlt
      · exact Or.inr ⟨heq.symm, hid y hy⟩
    · rw [if_neg hc]
      refine List.pairwise_cons.mpr ⟨?_, ih hcs
        (fun x hx => hid x (List.mem_cons_of_mem d hx))⟩
      intro y hy
      rcases mem_insertDesc hy with rfl | hy2
      · exact Or.inl (lt_of_not_le hc)
      · exact hd y hy2

theorem sortCandidates_code_order :
    ∀ (l : List Cand),
      List.Pairwise (fun a b => b.id_corpus < a.id_corpus) l →
      List.Pairwise (fun a b =>
        b.approx < a.approx ∨ (a.approx = b.approx ∧ b.id_corpus < a.id_corpus))
        (sortCandidates l) := by
  intro l
  induction l with
  | nil => intro _; exact List.Pairwise.nil
  | cons m ms ih =>
    intro hl
    obtain ⟨hd, hms⟩ := List.pairwise_cons.mp hl
    exact insertDesc_code_order m (sortCandidates ms) (ih hms)
      (fun x hx => hd x (mem_sortCandidates hx))

theorem scanEntry_id (h : List Char → Nat) (bandHash : Nat × List Nat → Nat)
    (sigDoc : List Nat) (bucketsDoc : List (Nat × Nat)) (k : Nat)
    (c : CorpusDoc) (x : Cand)
    (hx : scanEntry h bandHash sigDoc bucketsDoc k c = some x) :
    x.id_corpus = c.id_corpus := by
  rw [scanEntry] at hx
  split at hx
  · exact absurd hx (by simp)
  · split at hx
    · rw [Option.some_inj] at hx
      rw [← hx]
    · exact absurd hx (by simp)

theorem scanCorpus_ids_desc (h : List Char → Nat)
    (bandHash : Nat × List Nat → Nat) (docText : List Char) (k : Nat)
    (corpus : List CorpusDoc)
    (hid : corpus.Pairwise (fun a b => b.id_corpus < a.id_corpus)) :
    (scanCorpus h bandHash docText k corpus).Pairwise
      (fun a b => b.id_corpus < a.id_corpus) := by
  rw [scanCorpus]
  refine List.pairwise_filterMap.mpr (hid.imp ?_)
  intro a b hab x hx y hy
  rw [Option.mem_def] at hx hy
  rw [scanEntry_id h bandHash _ _ k a x hx,
    scanEntry_id h bandHash _ _ k b y hy]
  exact hab

/-- Claim C4 (amended).  When the corpus rows arrive with strictly descending
ids (`ORDER BY id_corpus DESC`), the candidate list persisted in
`summary_json` (and fed to the Winnowing verification) is sorted by `approx`
descending with ties broken by **descending** corpus id — the stable sort
preserves the scan order — and is truncated to `min(maxCandidates, 50)`
entries. -/
theorem runCheck_candidates_order (h : List Char → Nat)
    (bandHash : Nat × List Nat → Nat) (params : ParamsRow)
    (docFile : Option (List Char)) (maxCand : Nat) (corpus : List CorpusDoc)
    (hid : corpus.Pairwise (fun a b => b.id_corpus < a.id_corpus)) :
    CandCodeOrder
      (runSummaryCandidates (runCheck h bandHash params docFile maxCand corpus))
    ∧ (runSummaryCandidates
        (runCheck h bandHash params docFile maxCand corpus)).length
      ≤ min maxCand 50 := by
  rw [runCheck]
  by_cases hc : (readTextSafe docFile).length = 0 ∨
      (trim (readTextSafe docFile)).length < params.k
  · rw [if_pos hc]
    exact ⟨List.Pairwise.nil, Nat.zero_le _⟩
  · rw [if_neg hc]
    constructor
    · show CandCodeOrder (selectCandidates
        (scanCorpus h bandHash (readTextSafe docFile) params.k corpus) maxCand)
      exact List.Pairwise.sublist (List.take_sublist _ _)
        (sortCandidates_code_order _
          (scanCorpus_ids_desc h bandHash _ params.k corpus hid))
    · show (selectCandidates
        (scanCorpus h bandHash (readTextSafe docFile) params.k corpus)
          maxCand).length ≤ min maxCand 50
      rw [selectCandidates, List.length_take]
      exact min_le_left _ _

/-- Witness for claim C4 (amended): a two-document corpus with descending
ids. -/
theorem runCheck_candidates_order_witness :
    CandCodeOrder
      (runSummaryCandidates (runCheck List.length bandZero ⟨1, 1, 1, 0⟩
        (some ['a']) 10 [⟨4, [], some ['a']⟩, ⟨2, [], some ['a']⟩]))
    ∧ (runSummaryCandidates (runCheck List.length bandZero ⟨1, 1, 1, 0⟩
        (some ['a']) 10 [⟨4, [], some ['a']⟩, ⟨2, [], some ['a']⟩])).length
      ≤ min 10 50 :=
  runCheck_candidates_order List.length bandZero ⟨1, 1, 1, 0⟩ (some ['a']) 10
    [⟨4, [], some ['a']⟩, ⟨2, [], some ['a']⟩] (by decide)

/-- Claim C4 (counterexample).  Two candidates tied at `approx = 1` arrive in
scan order ids `[2, 1]` (descending, as the SQL orders them; ties do occur,
e.g. for two corpus entries with identical text).  The stable descending sort
keeps them as `[2, 1]` — ties are broken by *descending* id, so the claimed
ascending tie-break ordering is violated. -/
theorem select_tie_order_cex :
    selectCandidates [⟨2, [], 1⟩, ⟨1, [], 1⟩] 10 = [⟨2, [], 1⟩, ⟨1, [], 1⟩] ∧
    ¬ CandSpecOrder [⟨2, ([] : List Char), (1 : ℚ)⟩, ⟨1, [], 1⟩] := by
  constructor
  · rfl
  · intro hcon
    rcases (List.pairwise_cons.mp hcon).1 ⟨1, [], 1⟩ (List.mem_cons_self _ _)
      with hlt | ⟨_, hid2⟩
    · exact absurd hlt (by norm_num)
    · exact absurd hid2 (by norm_num)

/-! ## Failure condition of a check run (claim C3) -/

/-- Claim C3 (amended).  A check run fails (status `failed`, no persisted
`check_result` row, no `check_match` rows) exactly when the raw document text
is empty or its **trimmed** length is smaller than `k`: the route tests
`!docText || docText.trim().length < k` on the raw text — not the length of
the normalized text. -/
theorem runCheck_failed_iff (h : List Char → Nat)
    (bandHash : Nat × List Nat → Nat) (params : ParamsRow)
    (docFile : Option (List Char)) (maxCand : Nat)
    (corpus : List CorpusDoc) :
    ((runCheck h bandHash params docFile maxCand corpus).status
        = CheckStatus.failed
      ↔ ((readTextSafe docFile).length = 0 ∨
          (trim (readTextSafe docFile)).length < params.k)) ∧
    (((readTextSafe docFile).length = 0 ∨
        (trim (readTextSafe docFile)).length < params.k) →
      (runCheck h bandHash params docFile maxCand corpus).result = none ∧
      (runCheck h bandHash params docFile maxCand corpus).rows = []) := by
  rw [runCheck]
  by_cases hc : (readTextSafe docFile).length = 0 ∨
      (trim (readTextSafe docFile)).length < params.k
  · rw [if_pos hc]
    exact ⟨⟨fun _ => hc, fun _ => rfl⟩, fun _ => ⟨rfl, rfl⟩⟩
  · rw [if_neg hc]
    refine ⟨⟨fun hcon => ?_, fun hcon => absurd hcon hc⟩,
      fun hcon => absurd hcon hc⟩
    have hcon2 : CheckStatus.done = CheckStatus.failed := hcon
    exact absurd hcon2 (by decide)

/-- Claim C3 (counterexample).  The document text `"a!!!!!b"` has trimmed
length 7 ≥ k = 4, so the run succeeds and persists a result — yet its
normalized text `"a b"` has length 3 < 4, where the claim (normalized length
< k) demands a failure with no result row. -/
theorem runCheck_trim_vs_normalize_cex :
    (runCheck List.length bandZero ⟨1, 4, 1, 0⟩
        (some (("a!!!!!b").toList)) 10 []).status = CheckStatus.done ∧
    ((runCheck List.length bandZero ⟨1, 4, 1, 0⟩
        (some (("a!!!!!b").toList)) 10 []).result.isSome = true) ∧
    (normalize (("a!!!!!b").toList)).length < 4 := by
  refine ⟨?_, ?_, by decide⟩
  · rw [runCheck, if_neg (by decide)]
  · rw [runCheck, if_neg (by decide)]
    rfl

/-! ## Skipping unreadable corpus entries (claim C6) -/

theorem scanEntry_unreadable (h : List Char → Nat)
    (bandHash : Nat × List Nat → Nat) (sigDoc : List Nat)
    (bucketsDoc : List (Nat × Nat)) (k : Nat) (e : CorpusDoc)
    (he : e.text = none) :
    scanEntry h bandHash sigDoc bucketsDoc k e = none := by
  rw [scanEntry, he,
    if_pos (show (readTextSafe (none : Option (List Char))).length = 0 ∨
      (trim (readTextSafe (none : Option (List Char)))).length < k
      from Or.inl rfl)]

theorem scanCorpus_skip (h : List Char → Nat)
    (bandHash : Nat × List Nat → Nat) (docText : List Char) (k : Nat)
    (l1 l2 : List CorpusDoc) (e : CorpusDoc) (he : e.text = none) :
    scanCorpus h bandHash docText k (l1 ++ e :: l2)
      = scanCorpus h bandHash docText k (l1 ++ l2) := by
  rw [scanCorpus, scanCorpus, List.filterMap_append, List.filterMap_append,
    List.filterMap_cons_none (scanEntry_unreadable h bandHash _ _ k e he)]

theorem find?_skip_middle {p : CorpusDoc → Bool} (l1 l2 : List CorpusDoc)
    (e : CorpusDoc) (hpe : p e = false) :
    (l1 ++ e :: l2).find? p = (l1 ++ l2).find? p := by
  rw [List.find?_append, List.find?_append,
    List.find?_cons_of_neg l2 (by simp [hpe])]

theorem verifyStep_skip_middle (h : List Char → Nat)
    (fpDoc : List Fingerprint) (k w : Nat) (thr : ℚ)
    (l1 l2 : List CorpusDoc) (e : CorpusDoc) (acc : ℚ × List MatchRow)
    (cand : Cand) (hne : e.id_corpus ≠ cand.id_corpus) :
    verifyStep h fpDoc k w thr (l1 ++ e :: l2) acc cand
      = verifyStep h fpDoc k w thr (l1 ++ l2) acc cand := by
  simp only [verifyStep]
  rw [find?_skip_middle l1 l2 e (by simp [hne])]

/-- Helper: removing an unreadable corpus entry (with a fresh id) does not
change the outcome of a run. -/
theorem runCheck_skip_middle_eq (h : List Char → Nat)
    (bandHash : Nat × List Nat → Nat) (params : ParamsRow)
    (docFile : Option (List Char)) (maxCand : Nat)
    (l1 l2 : List CorpusDoc) (e : CorpusDoc) (he : e.text = none)
    (hid : ∀ c ∈ l1 ++ l2, c.id_corpus ≠ e.id_corpus) :
    runCheck h bandHash params docFile maxCand (l1 ++ e :: l2)
      = runCheck h bandHash params docFile maxCand (l1 ++ l2) := by
  simp only [runCheck]
  by_cases hc : (readTextSafe docFile).length = 0 ∨
      (trim (readTextSafe docFile)).length < params.k
  · rw [if_pos hc, if_pos hc]
  · rw [if_neg hc, if_neg hc,
      scanCorpus_skip h bandHash _ params.k l1 l2 e he]
    have hver : verifyCandidates h
        (winnow h (readTextSafe docFile) params.k params.w) params.k params.w
        params.threshold (l1 ++ e :: l2)
        (selectCandidates
          (scanCorpus h bandHash (readTextSafe docFile) params.k (l1 ++ l2))
          maxCand)
      = verifyCandidates h
        (winnow h (readTextSafe docFile) params.k params.w) params.k params.w
        params.threshold (l1 ++ l2)
        (selectCandidates
          (scanCorpus h bandHash (readTextSafe docFile) params.k (l1 ++ l2))
          maxCand) := by
      rw [verifyCandidates, verifyCandidates]
      refine foldl_congr_mem _ _ _ (fun acc cand hcand => ?_) (0, [])
      have hmem := mem_sortCandidates
        ((List.take_sublist _ _).mem hcand)
      rw [scanCorpus] at hmem
      rcases List.mem_filterMap.mp hmem with ⟨c, hcmem, hcsome⟩
      have hcid : cand.id_corpus = c.id_corpus :=
        scanEntry_id h bandHash _ _ params.k c cand hcsome
      exact verifyStep_skip_middle h _ params.k params.w params.threshold
        l1 l2 e acc cand (fun hcon => hid c hcmem (by rw [← hcid, ← hcon]))
    rw [hver]

/-- Claim C6 (amended).  A corpus entry whose text file is unreadable is
skipped without aborting the check, and silently: provided no other corpus
row reuses its id, the run's entire outcome — status, similarity,
`summary_json` and `check_match` rows — is identical to the outcome of a run
in which the entry does not exist at all.  In particular the persisted
summary (whose only fields are `params`, `candidates`, `best_similarity`)
records no warning of any kind about the skip. -/
theorem runCheck_skip_unreadable (h : List Char → Nat)
    (bandHash : Nat × List Nat → Nat) (params : ParamsRow)
    (docFile : Option (List Char)) (maxCand : Nat)
    (l1 l2 : List CorpusDoc) (e : CorpusDoc) (he : e.text = none)
    (hid : ∀ c ∈ l1 ++ l2, c.id_corpus ≠ e.id_corpus) :
    runCheck h bandHash params docFile maxCand (l1 ++ e :: l2)
      = runCheck h bandHash params docFile maxCand (l1 ++ l2) :=
  runCheck_skip_middle_eq h bandHash params docFile maxCand l1 l2 e he hid

/-- Witness for claim C6 (amended): a single unreadable corpus entry. -/
theorem runCheck_skip_unreadable_witness :
    runCheck List.length bandZero ⟨1, 1, 1, 0⟩ (some ['a']) 10
        ([] ++ (⟨5, [], none⟩ : CorpusDoc) :: [])
      = runCheck List.length bandZero ⟨1, 1, 1, 0⟩ (some ['a']) 10 ([] ++ []) :=
  runCheck_skip_unreadable List.length bandZero ⟨1, 1, 1, 0⟩ (some ['a']) 10
    [] [] ⟨5, [], none⟩ rfl (by simp)

/-- Claim C6 (counterexample).  A concrete run whose corpus contains an
unreadable entry (id 5) next to a readable one (id 3): the check completes
(`done`, skip is non-fatal — the true half of the claim) but its outcome,
summary included, is exactly the outcome of the run without the unreadable
entry; a summary "containing a structured warning recording the skip" would
have to differ from it.  The summary has no warnings field to record
anything in. -/
theorem runCheck_no_warning_cex :
    runCheck List.length bandZero ⟨1, 1, 1, 0⟩ (some (("ab").toList)) 10
        [⟨5, [], none⟩, ⟨3, [], some (("ab").toList)⟩]
      = runCheck List.length bandZero ⟨1, 1, 1, 0⟩ (some (("ab").toList)) 10
        [⟨3, [], some (("ab").toList)⟩] ∧
    (runCheck List.length bandZero ⟨1, 1, 1, 0⟩ (some (("ab").toList)) 10
        [⟨5, [], none⟩, ⟨3, [], some (("ab").toList)⟩]).status
      = CheckStatus.done := by
  constructor
  · have h5 : ([⟨5, [], none⟩, ⟨3, [], some (("ab").toList)⟩]
        : List CorpusDoc)
        = [] ++ (⟨5, [], none⟩ : CorpusDoc) :: [⟨3, [], some (("ab").toList)⟩]
      := rfl
    rw [h5, runCheck_skip_middle_eq List.length bandZero ⟨1, 1, 1, 0⟩
      (some (("ab").toList)) 10 [] [⟨3, [], some (("ab").toList)⟩]
      ⟨5, [], none⟩ rfl (by simp)]
    rfl
  · rw [runCheck, if_neg (by decide)]
